import Mathlib

/-!
# p2p/protocol.go: capabilities, their order and their rendering

A shallow embedding of `src/p2p/protocol.go`:

* `Protocol`, `Protocol.cap`
* `Cap`, `Cap.String`
* `capsByNameAndVersion` with `Len`, `Swap`, `Less`

Go strings are byte sequences compared byte by byte; `uint` values are natural
numbers (no arithmetic is done on `Version`, only comparison and printing, so
the width of `uint` plays no role and every statement below holds for all
naturals, in particular for those below `2 ^ 64`).  Indexing a slice with an
index outside `0 ≤ i < len` panics; the embedding returns `none` there.
-/

namespace P2P

/-! ## Data model -/

/-- One byte of a Go string. -/
abbrev Byte := Fin 256

/-- A Go `string`: an immutable sequence of bytes. -/
abbrev GoString := List Byte

/-- Go's built-in `<` on strings: byte-wise comparison over the common
prefix, a proper prefix being the smaller one. -/
def strLess : GoString → GoString → Bool
  | [], [] => false
  | [], _ :: _ => true
  | _ :: _, [] => false
  | x :: xs, y :: ys =>
    if x < y then true else if y < x then false else strLess xs ys

/-- `type Cap struct { Name string; Version uint }`. -/
structure Cap where
  Name : GoString
  Version : Nat
  deriving DecidableEq

/-- Types of the collaborators a `Protocol` refers to and that live outside
`protocol.go` (`Peer`, `MsgReadWriter`, `enode.ID`, `enode.Iterator`,
`enr.Entry`); they are kept abstract. -/
structure Externals where
  RunFn : Type
  NodeInfoFn : Type
  PeerInfoFn : Type
  Iterator : Type
  Entry : Type

/-- `type Protocol struct { ... }`.  Function values and the interface value
may be nil, hence `Option`; a slice is a list. -/
structure Protocol (X : Externals) where
  Name : GoString
  Version : Nat
  Length : Nat
  Run : Option X.RunFn
  NodeInfo : Option X.NodeInfoFn
  PeerInfo : Option X.PeerInfoFn
  DialCandidates : Option X.Iterator
  Attributes : List X.Entry

/-- `func (p Protocol) cap() Cap { return Cap{p.Name, p.Version} }`. -/
def Protocol.cap {X : Externals} (p : Protocol X) : Cap :=
  ⟨p.Name, p.Version⟩

/-! ## Rendering -/

/-- The byte `'0' + d`, as `fmt` computes a decimal digit. -/
def digitByte (d : Nat) : Byte := Fin.ofNat (48 + d)

/-- The base-10 loop of `fmt.(*fmt).fmtInteger`, which fills its buffer from
the right:
`for u >= 10 { i--; next := u / 10; buf[i] = byte('0' + u - next*10); u = next }`
followed by `i--; buf[i] = digits[u]`.  The first argument bounds the number
of iterations. -/
def fmtIntegerLoop : Nat → Nat → List Byte → List Byte
  | 0, u, buf => digitByte u :: buf
  | fuel + 1, u, buf =>
    if u ≥ 10 then
      fmtIntegerLoop fuel (u / 10) (digitByte (u - (u / 10) * 10) :: buf)
    else
      digitByte u :: buf

/-- The verb `%d` applied to an unsigned integer, without flags. -/
def fmtUint (u : Nat) : List Byte := fmtIntegerLoop u u []

/-- The byte `'/'`. -/
def slash : Byte := 47

/-- `fmt.Sprintf("%s/%d", s, d)` for a string `s` and an unsigned `d`. -/
def sprintfStrSlashUint (s : GoString) (d : Nat) : GoString :=
  s ++ slash :: fmtUint d

/-- `func (cap Cap) String() string { return fmt.Sprintf("%s/%d", cap.Name, cap.Version) }`. -/
def Cap.String (cap : Cap) : GoString :=
  sprintfStrSlashUint cap.Name cap.Version

/-! ## The sort interface of `capsByNameAndVersion` -/

/-- `type capsByNameAndVersion []Cap`. -/
abbrev capsByNameAndVersion := List Cap

/-- The index expression `cs[i]` for an `int` index: a panic (`none`) outside
`0 ≤ i < len(cs)`. -/
def index (cs : capsByNameAndVersion) (i : Int) : Option Cap :=
  if 0 ≤ i then cs[i.toNat]? else none

/-- `func (cs capsByNameAndVersion) Len() int { return len(cs) }`. -/
def Len (cs : capsByNameAndVersion) : Int := cs.length

/-- `func (cs capsByNameAndVersion) Swap(i, j int) { cs[i], cs[j] = cs[j], cs[i] }`.
Both operands are read first, then `cs[i]` and `cs[j]` are assigned in that
order; the result is the slice after the call. -/
def Swap (cs : capsByNameAndVersion) (i j : Int) : Option capsByNameAndVersion := do
  let a ← index cs i
  let b ← index cs j
  pure ((cs.set i.toNat b).set j.toNat a)

/-- The body of `Less`, on the two elements read from the slice. -/
def lessBody (a b : Cap) : Bool :=
  strLess a.Name b.Name || (a.Name == b.Name && decide (a.Version < b.Version))

/-- `func (cs capsByNameAndVersion) Less(i, j int) bool`. -/
def Less (cs : capsByNameAndVersion) (i j : Int) : Option Bool := do
  let a ← index cs i
  let b ← index cs j
  pure (lessBody a b)

/-! ## Reference notions the order is compared with -/

/-- Byte-wise string order in the usual mathematical form: the lexicographic
order of the two byte sequences. -/
def byteOrderLt (s t : GoString) : Prop := List.Lex (· < ·) s t

/-- Lexicographic order on the pair `(Name, Version)`: names by byte order
first, versions numerically second. -/
def lexNameVersion (a b : Cap) : Prop :=
  Prod.Lex byteOrderLt (· < ·) (a.Name, a.Version) (b.Name, b.Version)

/-- Sample slice `[abc/1, abc/2, xyz/3]`. -/
def sampleCaps : capsByNameAndVersion :=
  [⟨[97, 98, 99], 1⟩, ⟨[97, 98, 99], 2⟩, ⟨[120, 121, 122], 3⟩]

/-- Collaborator types instantiated trivially, for sample protocols. -/
def unitExternals : Externals := ⟨Unit, Unit, Unit, Unit, Unit⟩

/-- Sample protocol `eth/68` with 17 message codes and a `Run` handler. -/
def sampleProtoA : Protocol unitExternals :=
  ⟨[101, 116, 104], 68, 17, some (), none, none, none, []⟩

/-- Sample protocol `eth/68` differing from `sampleProtoA` in every other
field. -/
def sampleProtoB : Protocol unitExternals :=
  ⟨[101, 116, 104], 68, 21, none, some (), some (), some (), [(), ()]⟩

/-- A byte in `'0'..'9'`. -/
def isDigit (b : Byte) : Prop := 48 ≤ b.val ∧ b.val ≤ 57

/-- The number a string of decimal digits denotes, most significant digit
first. -/
def decimalValue (ds : List Byte) : Nat :=
  ds.foldl (fun acc b => 10 * acc + (b.val - 48)) 0

/-- Splits a string at its last `'/'`. -/
def splitLastSlash : GoString → Option (GoString × GoString)
  | [] => none
  | b :: rest =>
    match splitLastSlash rest with
    | some (n, d) => some (b :: n, d)
    | none => if b = slash then some ([], rest) else none

/-- A parser for renderings: the text before the last `'/'` is the name, the
text after it must be the canonical decimal form of the version. -/
def parseCap (s : GoString) : Option Cap :=
  match splitLastSlash s with
  | some (n, ds) =>
    if fmtUint (decimalValue ds) = ds then some ⟨n, decimalValue ds⟩ else none
  | none => none

/-- Sample capability whose name `a/1` contains a slash and a digit. -/
def sampleSlashCap : Cap := ⟨[97, 47, 49], 0⟩

/-- A slice is sorted ascending under `Less`: no element is `Less` than an
element that precedes it. -/
def SortedByLess (cs : capsByNameAndVersion) : Prop :=
  ∀ j : Nat, j < cs.length → ∀ i : Nat, i < j → Less cs (j : Int) (i : Int) = some false

instance (cs : capsByNameAndVersion) : Decidable (SortedByLess cs) := by
  unfold SortedByLess
  infer_instance

/-- Sorting a capability list into its canonical form: insertion sort with
the comparison of `Less`. -/
def sortCaps (cs : List Cap) : List Cap :=
  cs.insertionSort (fun a b => lessBody b a = false)

/-- The sample slice in another order, `[xyz/3, abc/1, abc/2]`. -/
def shuffledCaps : capsByNameAndVersion :=
  [⟨[120, 121, 122], 3⟩, ⟨[97, 98, 99], 1⟩, ⟨[97, 98, 99], 2⟩]

/-! ## Registration and negotiation

The multiplexer that registers descriptors and negotiates with a remote peer
is not part of `protocol.go`; the two definitions below follow the written
specification. -/

/-- The configuration errors of the registration call. -/
inductive ConfigError where
  | zeroCodeSpace
  | duplicateCapability
  | missingHandler
  deriving DecidableEq

/-- Modelled from the spec: the registration call of the multiplexer, which
`protocol.go` does not contain.  "Registration-time validation must fail with
a configuration error if `codeSpaceSize` is zero, if the capability duplicates
an already-registered capability, or if `sessionHandler` is absent"; otherwise
the descriptor joins the registered ones. -/
def register {X : Externals} (registered : List (Protocol X)) (p : Protocol X) :
    Except ConfigError (List (Protocol X)) :=
  if p.Length = 0 then .error .zeroCodeSpace
  else if registered.any (fun q => decide (q.cap = p.cap)) then .error .duplicateCapability
  else if p.Run.isNone then .error .missingHandler
  else .ok (registered ++ [p])

/-- A negotiated session: the matched descriptor and the offset of its
message codes in the code space of the connection. -/
structure Session (X : Externals) where
  proto : Protocol X
  offset : Nat

/-- The message codes of a session: the `Length` codes from its offset on. -/
def Session.covers {X : Externals} (s : Session X) (code : Nat) : Prop :=
  s.offset ≤ code ∧ code < s.offset + s.proto.Length

/-- Modelled from the spec: "set intersection by (name, version)" of the two
canonical capability lists, in canonical order (the negotiator is not in
`protocol.go`). -/
def matchedCaps {X : Externals} (locals : List (Protocol X)) (remote : List Cap) : List Cap :=
  (sortCaps (locals.map Protocol.cap)).filter (fun c => decide (c ∈ sortCaps remote))

/-- Modelled from the spec: "offset assignment by iterating the canonical
intersection in order", each descriptor taking the codes after those of the
one before it (the negotiator is not in `protocol.go`). -/
def assignOffsets {X : Externals} : Nat → List (Protocol X) → List (Session X)
  | _, [] => []
  | offset, p :: ps => ⟨p, offset⟩ :: assignOffsets (offset + p.Length) ps

/-- Modelled from the spec: negotiation on one connection, from the first
free message code `base`, the local descriptors and the capability list the
remote peer advertises (the negotiator is not in `protocol.go`). -/
def negotiate {X : Externals} (base : Nat) (locals : List (Protocol X)) (remote : List Cap) :
    List (Session X) :=
  assignOffsets base
    ((matchedCaps locals remote).filterMap (fun c => locals.find? (fun p => decide (p.cap = c))))

/-- Sample descriptor `abc/1` with 5 message codes. -/
def protoAbc1 : Protocol unitExternals := ⟨[97, 98, 99], 1, 5, some (), none, none, none, []⟩

/-- Sample descriptor `abc/2` with 6 message codes. -/
def protoAbc2 : Protocol unitExternals := ⟨[97, 98, 99], 2, 6, some (), none, none, none, []⟩

/-- Sample descriptor `xyz/3` with 7 message codes. -/
def protoXyz3 : Protocol unitExternals := ⟨[120, 121, 122], 3, 7, some (), none, none, none, []⟩

/-- A run of `Swap` calls, as a sort makes them: each call works on the
slice the call before it left; a panic in one call ends the run. -/
def swapSeq : capsByNameAndVersion → List (Int × Int) → Option capsByNameAndVersion
  | cs, [] => some cs
  | cs, (i, j) :: rest => (Swap cs i j).bind (fun cs1 => swapSeq cs1 rest)

/-- Sorting capabilities by the byte order of their renderings. -/
def sortByString (cs : List Cap) : List Cap :=
  cs.insertionSort (fun a b => strLess b.String a.String = false)

/-- Sample capability `n/9`. -/
def capN9 : Cap := ⟨[110], 9⟩

/-- Sample capability `n/10`. -/
def capN10 : Cap := ⟨[110], 10⟩

/-! ## String order -/

theorem strLess_irrefl (s : GoString) : strLess s s = false := by
  induction s with
  | nil => rfl
  | cons x xs ih => simp [strLess, ih]

theorem strLess_asymm : ∀ s t : GoString, strLess s t = true → strLess t s = false
  | [], [], h => by simp [strLess] at h
  | [], _ :: _, _ => by simp [strLess]
  | _ :: _, [], h => by simp [strLess] at h
  | x :: xs, y :: ys, h => by
    simp only [strLess] at h ⊢
    by_cases hxy : x < y
    · have : ¬ y < x := not_lt.mpr (le_of_lt hxy)
      simp [this, hxy]
    · by_cases hyx : y < x
      · simp [hxy, hyx] at h
      · simp only [hxy, hyx, if_false] at h ⊢
        exact strLess_asymm xs ys h

theorem strLess_trans : ∀ s t u : GoString,
    strLess s t = true → strLess t u = true → strLess s u = true
  | [], [], _, h, _ => by simp [strLess] at h
  | [], _ :: _, [], _, h => by simp [strLess] at h
  | [], _ :: _, _ :: _, _, _ => by simp [strLess]
  | _ :: _, [], _, h, _ => by simp [strLess] at h
  | _ :: _, _ :: _, [], _, h => by simp [strLess] at h
  | x :: xs, y :: ys, z :: zs, h1, h2 => by
    simp only [strLess] at h1 h2 ⊢
    by_cases hxy : x < y
    · by_cases hyz : y < z
      · simp [lt_trans hxy hyz]
      · by_cases hzy : z < y
        · simp [hyz, hzy] at h2
        · have : y = z := le_antisymm (not_lt.mp hzy) (not_lt.mp hyz)
          subst this
          simp [hxy]
    · by_cases hyx : y < x
      · simp [hxy, hyx] at h1
      · have : x = y := le_antisymm (not_lt.mp hyx) (not_lt.mp hxy)
        subst this
        simp only [hxy, if_false] at h1
        by_cases hxz : x < z
        · simp [hxz]
        · by_cases hzx : z < x
          · simp [hxz, hzx] at h2
          · simp only [hxz, hzx, if_false] at h2 ⊢
            exact strLess_trans xs ys zs h1 h2

theorem strLess_total : ∀ s t : GoString,
    strLess s t = false → strLess t s = false → s = t
  | [], [], _, _ => rfl
  | [], _ :: _, h, _ => by simp [strLess] at h
  | _ :: _, [], _, h => by simp [strLess] at h
  | x :: xs, y :: ys, h1, h2 => by
    simp only [strLess] at h1 h2
    by_cases hxy : x < y
    · simp [hxy] at h1
    · by_cases hyx : y < x
      · simp [hyx] at h2
      · have : x = y := le_antisymm (not_lt.mp hyx) (not_lt.mp hxy)
        subst this
        simp only [hxy, if_false] at h1 h2
        rw [strLess_total xs ys h1 h2]

theorem strLess_iff_lex : ∀ s t : GoString,
    strLess s t = true ↔ List.Lex (· < ·) s t
  | [], [] => by
    constructor
    · intro h; simp [strLess] at h
    · intro h; cases h
  | [], _ :: _ => by simp [strLess, List.Lex.nil]
  | _ :: _, [] => by
    constructor
    · intro h; simp [strLess] at h
    · intro h; cases h
  | x :: xs, y :: ys => by
    simp only [strLess]
    constructor
    · intro h
      by_cases hxy : x < y
      · exact List.Lex.rel hxy
      · by_cases hyx : y < x
        · simp [hxy, hyx] at h
        · have : x = y := le_antisymm (not_lt.mp hyx) (not_lt.mp hxy)
          subst this
          simp only [hxy, if_false] at h
          exact List.Lex.cons ((strLess_iff_lex xs ys).mp h)
    · intro h
      cases h with
      | cons h =>
        have hxx : ¬ x < x := lt_irrefl x
        simp only [hxx, if_false]
        exact (strLess_iff_lex xs ys).mpr h
      | rel h => simp [h]

/-! ## Indexing -/

theorem index_of_inRange (cs : capsByNameAndVersion) (i : Int)
    (h0 : 0 ≤ i) (h1 : i < Len cs) : ∃ a, index cs i = some a := by
  have hlt : i.toNat < cs.length := by
    simp only [Len] at h1
    omega
  exact ⟨cs[i.toNat], by simp [index, h0, List.getElem?_eq_getElem hlt]⟩

theorem Less_of_index {cs : capsByNameAndVersion} {i j : Int} {a b : Cap}
    (ha : index cs i = some a) (hb : index cs j = some b) :
    Less cs i j = some (lessBody a b) := by
  simp [Less, ha, hb]

/-! ## The comparison on two capabilities -/

theorem lessBody_iff (a b : Cap) :
    lessBody a b = true ↔
      strLess a.Name b.Name = true ∨ (a.Name = b.Name ∧ a.Version < b.Version) := by
  simp [lessBody]

theorem lessBody_irrefl (a : Cap) : lessBody a a = false := by
  simp [lessBody, strLess_irrefl]

theorem lessBody_asymm (a b : Cap) (h : lessBody a b = true) : lessBody b a = false := by
  rw [lessBody_iff] at h
  rw [Bool.eq_false_iff, Ne, lessBody_iff]
  rintro (h2 | ⟨h2, h3⟩)
  · rcases h with h | ⟨h, _⟩
    · rw [strLess_asymm _ _ h] at h2; cases h2
    · rw [h, strLess_irrefl] at h2; cases h2
  · rcases h with h | ⟨_, h⟩
    · rw [h2, strLess_irrefl] at h; cases h
    · omega

theorem lessBody_trans (a b c : Cap) (h1 : lessBody a b = true) (h2 : lessBody b c = true) :
    lessBody a c = true := by
  rw [lessBody_iff] at h1 h2 ⊢
  rcases h1 with h1 | ⟨h1, h1v⟩
  · rcases h2 with h2 | ⟨h2, _⟩
    · exact Or.inl (strLess_trans _ _ _ h1 h2)
    · exact Or.inl (h2 ▸ h1)
  · rcases h2 with h2 | ⟨h2, h2v⟩
    · exact Or.inl (h1 ▸ h2)
    · exact Or.inr ⟨h1.trans h2, lt_trans h1v h2v⟩

theorem lessBody_total (a b : Cap) (h1 : lessBody a b = false) (h2 : lessBody b a = false) :
    a = b := by
  rw [Bool.eq_false_iff, Ne, lessBody_iff] at h1 h2
  have hn : a.Name = b.Name :=
    strLess_total _ _ (by
      cases h : strLess a.Name b.Name
      · rfl
      · exact absurd (Or.inl h) h1) (by
      cases h : strLess b.Name a.Name
      · rfl
      · exact absurd (Or.inl h) h2)
  have hv : a.Version = b.Version := by
    have h3 : ¬ a.Version < b.Version := fun h => h1 (Or.inr ⟨hn, h⟩)
    have h4 : ¬ b.Version < a.Version := fun h => h2 (Or.inr ⟨hn.symm, h⟩)
    omega
  cases a; cases b
  simp only [Cap.mk.injEq]
  exact ⟨hn, hv⟩

/-! ## Claims about `Less` -/

/-- C1: on every slice and all in-range indices `i`, `j`, `k`, `Less` is
irreflexive, asymmetric and transitive. -/
theorem Less_strict_order (cs : capsByNameAndVersion) (i j k : Int)
    (hi : 0 ≤ i ∧ i < Len cs) (hj : 0 ≤ j ∧ j < Len cs) (hk : 0 ≤ k ∧ k < Len cs) :
    Less cs i i = some false ∧
    (Less cs i j = some true → Less cs j i = some false) ∧
    (Less cs i j = some true → Less cs j k = some true → Less cs i k = some true) := by
  obtain ⟨a, ha⟩ := index_of_inRange cs i hi.1 hi.2
  obtain ⟨b, hb⟩ := index_of_inRange cs j hj.1 hj.2
  obtain ⟨c, hc⟩ := index_of_inRange cs k hk.1 hk.2
  rw [Less_of_index ha ha, Less_of_index ha hb, Less_of_index hb ha,
    Less_of_index hb hc, Less_of_index ha hc]
  simp only [Option.some.injEq]
  exact ⟨lessBody_irrefl a, lessBody_asymm a b, lessBody_trans a b c⟩

/-- Witness of C1 on `[abc/1, abc/2, xyz/3]` at indices 0, 1, 2. -/
theorem Less_strict_order_witness :
    ((0 : Int) ≤ 0 ∧ (0 : Int) < Len sampleCaps) ∧
    ((0 : Int) ≤ 1 ∧ (1 : Int) < Len sampleCaps) ∧
    ((0 : Int) ≤ 2 ∧ (2 : Int) < Len sampleCaps) ∧
    Less sampleCaps 0 1 = some true ∧ Less sampleCaps 1 2 = some true ∧
    Less sampleCaps 0 0 = some false ∧
    (Less sampleCaps 0 1 = some true → Less sampleCaps 1 0 = some false) ∧
    (Less sampleCaps 0 1 = some true → Less sampleCaps 1 2 = some true →
      Less sampleCaps 0 2 = some true) :=
  ⟨by decide, by decide, by decide, by decide, by decide,
    Less_strict_order sampleCaps 0 1 2 (by decide) (by decide) (by decide)⟩

/-- C2: the elements `a`, `b` read at two indices of a slice satisfy exactly
one of `Less(i, j)`, `a = b`, `Less(j, i)`; `a = b` means that both fields
match; neither is `Less` than the other iff both fields match. -/
theorem Less_trichotomy (cs : capsByNameAndVersion) (i j : Int) (a b : Cap)
    (ha : index cs i = some a) (hb : index cs j = some b) :
    (Less cs i j = some true ∨ a = b ∨ Less cs j i = some true) ∧
    ¬ (Less cs i j = some true ∧ a = b) ∧
    ¬ (a = b ∧ Less cs j i = some true) ∧
    ¬ (Less cs i j = some true ∧ Less cs j i = some true) ∧
    (a = b ↔ a.Name = b.Name ∧ a.Version = b.Version) ∧
    ((Less cs i j = some false ∧ Less cs j i = some false) ↔
      (a.Name = b.Name ∧ a.Version = b.Version)) := by
  rw [Less_of_index ha hb, Less_of_index hb ha]
  simp only [Option.some.injEq]
  have heq : a = b ↔ a.Name = b.Name ∧ a.Version = b.Version := by
    cases a; cases b; simp
  refine ⟨?_, ?_, ?_, ?_, heq, ?_⟩
  · cases h1 : lessBody a b
    · cases h2 : lessBody b a
      · exact Or.inr (Or.inl (lessBody_total a b h1 h2))
      · exact Or.inr (Or.inr rfl)
    · exact Or.inl rfl
  · rintro ⟨h1, rfl⟩
    rw [lessBody_irrefl] at h1; cases h1
  · rintro ⟨rfl, h1⟩
    rw [lessBody_irrefl] at h1; cases h1
  · rintro ⟨h1, h2⟩
    rw [lessBody_asymm a b h1] at h2; cases h2
  · rw [← heq]
    constructor
    · rintro ⟨h1, h2⟩
      exact lessBody_total a b h1 h2
    · rintro rfl
      exact ⟨lessBody_irrefl a, lessBody_irrefl a⟩

/-- Witness of C2 on `[abc/1, abc/2, xyz/3]` at indices 1 and 0. -/
theorem Less_trichotomy_witness :
    index sampleCaps 1 = some ⟨[97, 98, 99], 2⟩ ∧
    index sampleCaps 0 = some ⟨[97, 98, 99], 1⟩ ∧
    Less sampleCaps 0 1 = some true ∧
    ¬ (Less sampleCaps 1 0 = some true ∧ Less sampleCaps 0 1 = some true) :=
  ⟨by decide, by decide, by decide,
    (Less_trichotomy sampleCaps 1 0 ⟨[97, 98, 99], 2⟩ ⟨[97, 98, 99], 1⟩
      (by decide) (by decide)).2.2.2.1⟩

/-- C3: `Less(i, j)` returns a boolean that is true exactly when the name at
`i` is byte-wise smaller than the name at `j`, or the names are equal and the
version at `i` is numerically smaller; this is the lexicographic order on
`(Name, Version)`; when the names differ the result is the comparison of the
names alone, whatever the versions. -/
theorem Less_lexicographic (cs : capsByNameAndVersion) (i j : Int) (a b : Cap)
    (ha : index cs i = some a) (hb : index cs j = some b) :
    (∃ r, Less cs i j = some r) ∧
    (Less cs i j = some true ↔
      byteOrderLt a.Name b.Name ∨ (a.Name = b.Name ∧ a.Version < b.Version)) ∧
    (Less cs i j = some true ↔ lexNameVersion a b) ∧
    (a.Name ≠ b.Name → ∀ v w : Nat,
      Less [⟨a.Name, v⟩, ⟨b.Name, w⟩] 0 1 = Less cs i j) := by
  rw [Less_of_index ha hb]
  simp only [Option.some.injEq]
  have h1 : lessBody a b = true ↔
      byteOrderLt a.Name b.Name ∨ (a.Name = b.Name ∧ a.Version < b.Version) := by
    rw [lessBody_iff, strLess_iff_lex]; rfl
  refine ⟨⟨_, rfl⟩, h1, ?_, ?_⟩
  · rw [h1, lexNameVersion, Prod.lex_def]
  · intro hne v w
    have : Less [⟨a.Name, v⟩, ⟨b.Name, w⟩] 0 1 =
        some (lessBody ⟨a.Name, v⟩ ⟨b.Name, w⟩) := rfl
    have hbeq : (a.Name == b.Name) = false := beq_eq_false_iff_ne.mpr hne
    rw [this]
    simp only [lessBody, hbeq, Bool.false_and]

/-- Witness of C3 on `[abc/1, abc/2, xyz/3]` at indices 1 and 2: the names
differ and the smaller name decides. -/
theorem Less_lexicographic_witness :
    index sampleCaps 1 = some ⟨[97, 98, 99], 2⟩ ∧
    index sampleCaps 2 = some ⟨[120, 121, 122], 3⟩ ∧
    Less sampleCaps 1 2 = some true ∧
    (Less sampleCaps 1 2 = some true ↔
      lexNameVersion ⟨[97, 98, 99], 2⟩ ⟨[120, 121, 122], 3⟩) :=
  ⟨by decide, by decide, by decide,
    (Less_lexicographic sampleCaps 1 2 ⟨[97, 98, 99], 2⟩ ⟨[120, 121, 122], 3⟩
      (by decide) (by decide)).2.2.1⟩

/-! ## `Protocol.cap` -/

/-- C9: `p.cap()` has `p.Name` as name and `p.Version` as version, and two
protocols (over any collaborator types) that agree on `Name` and `Version`
have equal capabilities whatever their other fields. -/
theorem cap_name_version {X Y : Externals} (p : Protocol X) (q : Protocol Y)
    (hn : p.Name = q.Name) (hv : p.Version = q.Version) :
    p.cap.Name = p.Name ∧ p.cap.Version = p.Version ∧ p.cap = q.cap := by
  refine ⟨rfl, rfl, ?_⟩
  simp only [Protocol.cap, hn, hv]

/-- Witness of C9: two `eth/68` protocols that differ in `Length`, `Run`,
`NodeInfo`, `PeerInfo`, `DialCandidates` and `Attributes`. -/
theorem cap_name_version_witness :
    sampleProtoA.Name = sampleProtoB.Name ∧
    sampleProtoA.Version = sampleProtoB.Version ∧
    sampleProtoA.Length ≠ sampleProtoB.Length ∧
    sampleProtoA.Run ≠ sampleProtoB.Run ∧
    sampleProtoA.cap = ⟨[101, 116, 104], 68⟩ ∧
    sampleProtoA.cap = sampleProtoB.cap :=
  ⟨rfl, rfl, by decide, by simp [sampleProtoA, sampleProtoB],  rfl,
    (cap_name_version sampleProtoA sampleProtoB rfl rfl).2.2⟩

/-! ## `Swap` -/

theorem index_eq_getElem? (cs : capsByNameAndVersion) (i : Int) (h0 : 0 ≤ i) :
    index cs i = cs[i.toNat]? := by
  simp [index, h0]

theorem index_neg (cs : capsByNameAndVersion) (i : Int) (h0 : ¬ 0 ≤ i) :
    index cs i = none := by
  simp [index, h0]

theorem set_set_getElem? {α : Type} (cs : List α) (n m : Nat) (a b : α)
    (ha : cs[n]? = some a) (hb : cs[m]? = some b) :
    ((cs.set n b).set m a)[n]? = some b ∧ ((cs.set n b).set m a)[m]? = some a ∧
    (∀ k, k ≠ n → k ≠ m → ((cs.set n b).set m a)[k]? = cs[k]?) ∧
    ((cs.set n b).set m a).length = cs.length ∧ (n = m → (cs.set n b).set m a = cs) := by
  have hn : n < cs.length := (List.getElem?_eq_some_iff.mp ha).1
  have hm : m < cs.length := (List.getElem?_eq_some_iff.mp hb).1
  refine ⟨?_, ?_, ?_, ?_, ?_⟩
  · by_cases h : m = n
    · subst h
      rw [ha] at hb
      simp [List.getElem?_set, hm, hb]
    · simp [List.getElem?_set, h, hn]
  · simp [List.getElem?_set, hm]
  · intro k hk1 hk2
    simp [List.getElem?_set, Ne.symm hk1, Ne.symm hk2]
  · simp
  · rintro rfl
    rw [ha] at hb
    cases hb
    apply List.ext_getElem?
    intro k
    by_cases h : n = k
    · subst h; simp [List.getElem?_set, hn, ha]
    · simp [List.getElem?_set, h]

/-- C10: for in-range `i`, `j`, `Swap(i, j)` completes; afterwards the
element at `i` is the old element at `j`, the element at `j` is the old
element at `i`, every other index reads as before, `Len` is unchanged, and
`Swap(i, i)` leaves the slice unchanged. -/
theorem Swap_frame (cs : capsByNameAndVersion) (i j : Int)
    (hi : 0 ≤ i ∧ i < Len cs) (hj : 0 ≤ j ∧ j < Len cs) :
    ∃ cs1, Swap cs i j = some cs1 ∧
      index cs1 i = index cs j ∧ index cs1 j = index cs i ∧
      (∀ k : Int, k ≠ i → k ≠ j → index cs1 k = index cs k) ∧
      Len cs1 = Len cs ∧ (i = j → cs1 = cs) := by
  obtain ⟨a, ha⟩ := index_of_inRange cs i hi.1 hi.2
  obtain ⟨b, hb⟩ := index_of_inRange cs j hj.1 hj.2
  have ha1 : cs[i.toNat]? = some a := by rw [← index_eq_getElem? cs i hi.1]; exact ha
  have hb1 : cs[j.toNat]? = some b := by rw [← index_eq_getElem? cs j hj.1]; exact hb
  obtain ⟨h1, h2, h3, h4, h5⟩ := set_set_getElem? cs i.toNat j.toNat a b ha1 hb1
  refine ⟨(cs.set i.toNat b).set j.toNat a, by simp [Swap, ha, hb], ?_, ?_, ?_, ?_, ?_⟩
  · rw [index_eq_getElem? _ i hi.1, h1, hb]
  · rw [index_eq_getElem? _ j hj.1, h2, ha]
  · intro k hki hkj
    by_cases hk : 0 ≤ k
    · rw [index_eq_getElem? _ k hk, index_eq_getElem? _ k hk]
      apply h3
      · intro h; apply hki; have := hi.1; omega
      · intro h; apply hkj; have := hj.1; omega
    · rw [index_neg _ k hk, index_neg _ k hk]
  · simp only [Len, h4]
  · intro hij
    exact h5 (by rw [hij])

/-- Witness of C10: swapping the ends of `[abc/1, abc/2, xyz/3]`. -/
theorem Swap_frame_witness :
    ((0 : Int) ≤ 0 ∧ (0 : Int) < Len sampleCaps) ∧
    ((0 : Int) ≤ 2 ∧ (2 : Int) < Len sampleCaps) ∧
    Swap sampleCaps 0 2 =
      some [⟨[120, 121, 122], 3⟩, ⟨[97, 98, 99], 2⟩, ⟨[97, 98, 99], 1⟩] ∧
    ∃ cs1, Swap sampleCaps 0 2 = some cs1 ∧
      index cs1 0 = index sampleCaps 2 ∧ index cs1 2 = index sampleCaps 0 ∧
      (∀ k : Int, k ≠ 0 → k ≠ 2 → index cs1 k = index sampleCaps k) ∧
      Len cs1 = Len sampleCaps ∧ ((0 : Int) = 2 → cs1 = sampleCaps) :=
  ⟨by decide, by decide, by decide,
    Swap_frame sampleCaps 0 2 (by decide) (by decide)⟩

/-! ## `Cap.String` -/

theorem digitByte_val (d : Nat) (h : d < 10) : (digitByte d).val = 48 + d := by
  simp only [digitByte, Fin.ofNat, Fin.val_mk]
  omega

theorem decimalValue_append_singleton (ds : List Byte) (b : Byte) :
    decimalValue (ds ++ [b]) = 10 * decimalValue ds + (b.val - 48) := by
  simp [decimalValue, List.foldl_append]

theorem fmtIntegerLoop_spec : ∀ (fuel u : Nat) (buf : List Byte), u ≤ fuel →
    ∃ ds, fmtIntegerLoop fuel u buf = ds ++ buf ∧ ds ≠ [] ∧ (∀ b ∈ ds, isDigit b) ∧
      decimalValue ds = u ∧ (u ≠ 0 → ds.head? ≠ some 48) ∧ (u < 10 → ds = [digitByte u])
  | 0, u, buf, h => by
    have hu : u = 0 := by omega
    subst hu
    refine ⟨[digitByte 0], rfl, by simp, ?_, by decide, by simp, fun _ => rfl⟩
    intro b hb
    simp only [List.mem_singleton] at hb
    subst hb
    simp only [isDigit, digitByte_val 0 (by omega)]
    omega
  | fuel + 1, u, buf, h => by
    by_cases hu : u ≥ 10
    · obtain ⟨ds, h1, h2, h3, h4, h5, _⟩ :=
        fmtIntegerLoop_spec fuel (u / 10) (digitByte (u - (u / 10) * 10) :: buf) (by omega)
      have hd : u - (u / 10) * 10 < 10 := by omega
      refine ⟨ds ++ [digitByte (u - (u / 10) * 10)], ?_, by simp, ?_, ?_, ?_, ?_⟩
      · simp only [fmtIntegerLoop, hu, if_true, h1, List.append_assoc, List.singleton_append]
      · intro b hb
        rcases List.mem_append.mp hb with hb | hb
        · exact h3 b hb
        · simp only [List.mem_singleton] at hb
          subst hb
          simp only [isDigit, digitByte_val _ hd]
          omega
      · rw [decimalValue_append_singleton, h4, digitByte_val _ hd]
        omega
      · intro _
        have : u / 10 ≠ 0 := by omega
        cases ds with
        | nil => exact absurd rfl h2
        | cons x xs => simpa using h5 this
      · intro hlt; omega
    · have hlt : u < 10 := by omega
      refine ⟨[digitByte u], ?_, by simp, ?_, ?_, ?_, fun _ => rfl⟩
      · simp only [fmtIntegerLoop, hu, if_false, List.singleton_append]
      · intro b hb
        simp only [List.mem_singleton] at hb
        subst hb
        simp only [isDigit, digitByte_val _ hlt]
        omega
      · simp [decimalValue, digitByte_val _ hlt]
      · intro h0
        simp only [List.head?_cons, ne_eq, Option.some.injEq]
        intro h48
        have h49 : (digitByte u).val = 48 := by rw [h48]; rfl
        rw [digitByte_val _ hlt] at h49
        omega

theorem fmtUint_spec (u : Nat) :
    fmtUint u ≠ [] ∧ (∀ b ∈ fmtUint u, isDigit b) ∧ decimalValue (fmtUint u) = u ∧
      (u ≠ 0 → (fmtUint u).head? ≠ some 48) ∧ (u = 0 → fmtUint u = [48]) := by
  obtain ⟨ds, h1, h2, h3, h4, h5, h6⟩ := fmtIntegerLoop_spec u u [] le_rfl
  have : fmtUint u = ds := by simpa [fmtUint] using h1
  rw [this]
  refine ⟨h2, h3, h4, h5, ?_⟩
  intro h0
  subst h0
  exact h6 (by decide)

/-- C4: `Cap.String` is total and returns the name, one `'/'`, and the
decimal form of the version: a non-empty string of digits `'0'..'9'` (so no
sign) that denotes the version, with no leading zero, and `"0"` for version
zero; the empty name is rendered like any other. -/
theorem String_format (c : Cap) :
    ∃ ds, c.String = c.Name ++ slash :: ds ∧ ds = fmtUint c.Version ∧
      ds ≠ [] ∧ (∀ b ∈ ds, isDigit b) ∧ decimalValue ds = c.Version ∧
      (ds.head? = some 48 → ds = [48]) ∧ (c.Version = 0 → ds = [48]) ∧
      Cap.String ⟨[], c.Version⟩ = slash :: ds := by
  obtain ⟨h1, h2, h3, h4, h5⟩ := fmtUint_spec c.Version
  refine ⟨fmtUint c.Version, rfl, rfl, h1, h2, h3, ?_, h5, rfl⟩
  intro hh
  by_cases h0 : c.Version = 0
  · exact h5 h0
  · exact absurd hh (h4 h0)

/-! ## Injectivity of the rendering -/

theorem isDigit_ne_slash (b : Byte) (h : isDigit b) : b ≠ slash := by
  rintro rfl
  have h48 := h.1
  simp only [slash] at h48
  revert h48
  decide

theorem splitLastSlash_none : ∀ ds : GoString, (∀ b ∈ ds, b ≠ slash) →
    splitLastSlash ds = none
  | [], _ => rfl
  | b :: rest, h => by
    have h1 : splitLastSlash rest = none :=
      splitLastSlash_none rest (fun x hx => h x (List.mem_cons_of_mem _ hx))
    have h2 : b ≠ slash := h b (List.mem_cons_self _ _)
    simp only [splitLastSlash, h1, h2, if_false]

theorem splitLastSlash_append (ds : GoString) (h : ∀ b ∈ ds, b ≠ slash) :
    ∀ n : GoString, splitLastSlash (n ++ slash :: ds) = some (n, ds)
  | [] => by
    simp only [List.nil_append, splitLastSlash, splitLastSlash_none ds h, if_true]
  | b :: n => by
    have ih := splitLastSlash_append ds h n
    show splitLastSlash (b :: (n ++ slash :: ds)) = some (b :: n, ds)
    simp only [splitLastSlash, ih]

theorem parseCap_String (c : Cap) : parseCap c.String = some c := by
  obtain ⟨_, h2, h3, _, _⟩ := fmtUint_spec c.Version
  have hs : splitLastSlash (c.Name ++ slash :: fmtUint c.Version) =
      some (c.Name, fmtUint c.Version) :=
    splitLastSlash_append _ (fun b hb => isDigit_ne_slash b (h2 b hb)) _
  simp only [parseCap, Cap.String, sprintfStrSlashUint, hs, h3, if_true]

/-- C5: `Cap.String` is injective, for all names (also names containing
`'/'` or digits), and `parseCap` maps every rendering back to the capability
that produced it. -/
theorem String_injective (a b : Cap) (h : a.String = b.String) :
    a = b ∧ a.Name = b.Name ∧ a.Version = b.Version ∧
      ∃ parse : GoString → Option Cap, ∀ c : Cap, parse c.String = some c := by
  have hab : a = b := by
    have h1 := parseCap_String a
    rw [h, parseCap_String b] at h1
    exact (Option.some.inj h1).symm
  exact ⟨hab, by rw [hab], by rw [hab], parseCap, parseCap_String⟩

/-- Witness of C5 at the capability named `a/1` with version 0, whose
rendering `a/1/0` differs from the rendering `a/10` of `a` with version 10. -/
theorem String_injective_witness :
    sampleSlashCap.String = [97, 47, 49, 47, 48] ∧
    Cap.String ⟨[97], 10⟩ = [97, 47, 49, 48] ∧
    parseCap [97, 47, 49, 47, 48] = some sampleSlashCap ∧
    sampleSlashCap = sampleSlashCap ∧
    ∃ parse : GoString → Option Cap, ∀ c : Cap, parse c.String = some c :=
  ⟨by decide, by decide, by decide, rfl,
    (String_injective sampleSlashCap sampleSlashCap rfl).2.2.2⟩

/-! ## Uniqueness of the sorted form -/

theorem index_natCast (cs : capsByNameAndVersion) (n : Nat) :
    index cs (n : Int) = cs[n]? := by
  simp [index]

theorem SortedByLess.pairwise {cs : capsByNameAndVersion} (h : SortedByLess cs) :
    cs.Pairwise (fun a b => lessBody b a = false) := by
  rw [List.pairwise_iff_getElem]
  intro i j hi hj hij
  have h1 := h j hj i hij
  have ha : index cs (j : Int) = some cs[j] := by
    rw [index_natCast, List.getElem?_eq_getElem hj]
  have hb : index cs (i : Int) = some cs[i] := by
    rw [index_natCast, List.getElem?_eq_getElem hi]
  rw [Less_of_index ha hb] at h1
  exact Option.some.inj h1

/-- C6: two capability lists that are permutations of each other and are
both sorted ascending under `Less` are equal. -/
theorem sorted_perm_unique (l1 l2 : capsByNameAndVersion) (hp : l1.Perm l2)
    (h1 : SortedByLess l1) (h2 : SortedByLess l2) : l1 = l2 := by
  haveI : IsAntisymm Cap (fun a b => lessBody b a = false) :=
    ⟨fun a b hab hba => lessBody_total a b hba hab⟩
  exact List.eq_of_perm_of_sorted hp h1.pairwise h2.pairwise

/-- Witness of C6: `[abc/1, abc/2, xyz/3]` and the sorted form of
`[xyz/3, abc/1, abc/2]`. -/
theorem sorted_perm_unique_witness :
    sampleCaps.Perm (sortCaps shuffledCaps) ∧ SortedByLess sampleCaps ∧
    SortedByLess (sortCaps shuffledCaps) ∧ ¬ SortedByLess shuffledCaps ∧
    sampleCaps = sortCaps shuffledCaps :=
  ⟨by decide, by decide, by decide, by decide,
    sorted_perm_unique sampleCaps (sortCaps shuffledCaps) (by decide) (by decide) (by decide)⟩

/-! ## Registration -/

/-- C7: a second registration of a capability already registered fails;
two valid descriptors with the same name and different versions, neither
registered before, are both accepted; a descriptor with `Length` zero or
without `Run` is refused. -/
theorem register_validation {X : Externals} (registered : List (Protocol X))
    (p q : Protocol X) :
    (p.cap = q.cap → ∀ r1, register registered p = .ok r1 →
      ∃ e, register r1 q = .error e) ∧
    (p.Name = q.Name → p.Version ≠ q.Version → p.Length ≠ 0 → q.Length ≠ 0 →
      p.Run ≠ none → q.Run ≠ none →
      (∀ r ∈ registered, r.cap ≠ p.cap ∧ r.cap ≠ q.cap) →
      ∃ r1 r2, register registered p = .ok r1 ∧ register r1 q = .ok r2) ∧
    (p.Length = 0 → ∃ e, register registered p = .error e) ∧
    (p.Run = none → ∃ e, register registered p = .error e) := by
  refine ⟨?_, ?_, ?_, ?_⟩
  · intro hcap r1 h1
    have hr1 : r1 = registered ++ [p] := by
      unfold register at h1
      split_ifs at h1
      exact (Except.ok.inj h1).symm
    subst hr1
    have hany : (registered ++ [p]).any (fun r => decide (r.cap = q.cap)) = true := by
      simp [hcap]
    unfold register
    by_cases h2 : q.Length = 0
    · exact ⟨.zeroCodeSpace, by rw [if_pos h2]⟩
    · exact ⟨.duplicateCapability, by rw [if_neg h2, if_pos hany]⟩
  · intro hn hv hp hq hpr hqr hreg
    have hpq : p.cap ≠ q.cap := by
      intro h
      apply hv
      have := congrArg Cap.Version h
      exact this
    refine ⟨registered ++ [p], (registered ++ [p]) ++ [q], ?_, ?_⟩
    · unfold register
      have h1 : ¬ (registered.any (fun r => decide (r.cap = p.cap)) = true) := by
        simp only [List.any_eq_true, decide_eq_true_eq, not_exists, not_and]
        intro r hr
        exact (hreg r hr).1
      have h2 : ¬ (p.Run.isNone = true) := by
        cases hrun : p.Run
        · exact absurd hrun hpr
        · simp
      rw [if_neg hp, if_neg h1, if_neg h2]
    · unfold register
      have h1 : ¬ ((registered ++ [p]).any (fun r => decide (r.cap = q.cap)) = true) := by
        simp only [List.any_eq_true, decide_eq_true_eq, not_exists, not_and]
        intro r hr
        rcases List.mem_append.mp hr with hr | hr
        · exact (hreg r hr).2
        · simp only [List.mem_singleton] at hr
          subst hr
          exact hpq
      have h2 : ¬ (q.Run.isNone = true) := by
        cases hrun : q.Run
        · exact absurd hrun hqr
        · simp
      rw [if_neg hq, if_neg h1, if_neg h2]
  · intro h0
    exact ⟨.zeroCodeSpace, by simp [register, h0]⟩
  · intro hrun
    have hnone : p.Run.isNone = true := by rw [hrun]; rfl
    unfold register
    by_cases h1 : p.Length = 0
    · exact ⟨.zeroCodeSpace, by rw [if_pos h1]⟩
    · by_cases h2 : registered.any (fun r => decide (r.cap = p.cap)) = true
      · exact ⟨.duplicateCapability, by rw [if_neg h1, if_pos h2]⟩
      · exact ⟨.missingHandler, by rw [if_neg h1, if_neg h2, if_pos hnone]⟩

/-- Witness of C7: `abc/1` and `abc/2` are both accepted by an empty
registry, and `abc/1` is refused the second time. -/
theorem register_validation_witness :
    (∃ r1 r2, register [] protoAbc1 = .ok r1 ∧ register r1 protoAbc2 = .ok r2) ∧
    (∃ e, register [protoAbc1] protoAbc1 = .error e) :=
  ⟨(register_validation [] protoAbc1 protoAbc2).2.1 rfl (by decide) (by decide) (by decide)
      (by simp [protoAbc1]) (by simp [protoAbc2]) (by simp),
    (register_validation [] protoAbc1 protoAbc1).1 rfl [protoAbc1] rfl⟩

/-! ## Negotiation -/

theorem assignOffsets_offset_ge {X : Externals} : ∀ (ps : List (Protocol X)) (base : Nat),
    ∀ s ∈ assignOffsets base ps, base ≤ s.offset
  | [], _, s, hs => by simp [assignOffsets] at hs
  | p :: ps, base, s, hs => by
    simp only [assignOffsets, List.mem_cons] at hs
    rcases hs with rfl | hs
    · exact le_rfl
    · have := assignOffsets_offset_ge ps (base + p.Length) s hs
      omega

theorem assignOffsets_pairwise {X : Externals} : ∀ (ps : List (Protocol X)) (base : Nat),
    (assignOffsets base ps).Pairwise (fun s t => s.offset + s.proto.Length ≤ t.offset)
  | [], _ => by simp [assignOffsets]
  | p :: ps, base => by
    simp only [assignOffsets, List.pairwise_cons]
    exact ⟨fun t ht => assignOffsets_offset_ge ps (base + p.Length) t ht,
      assignOffsets_pairwise ps (base + p.Length)⟩

theorem assignOffsets_adjacent {X : Externals} : ∀ (ps : List (Protocol X)) (base i : Nat)
    (s t : Session X), (assignOffsets base ps)[i]? = some s →
    (assignOffsets base ps)[i + 1]? = some t → t.offset = s.offset + s.proto.Length
  | [], _, _, _, _, hs, _ => by simp [assignOffsets] at hs
  | [_], _, 0, _, _, _, ht => by simp [assignOffsets] at ht
  | p :: q :: ps, base, 0, s, t, hs, ht => by
    simp only [assignOffsets, List.getElem?_cons_zero, List.getElem?_cons_succ,
      Option.some.injEq] at hs ht
    subst hs; subst ht
    rfl
  | p :: ps, base, i + 1, s, t, hs, ht => by
    simp only [assignOffsets, List.getElem?_cons_succ] at hs ht
    exact assignOffsets_adjacent ps (base + p.Length) i s t hs ht

theorem assignOffsets_proto {X : Externals} : ∀ (ps : List (Protocol X)) (base : Nat),
    (assignOffsets base ps).map Session.proto = ps
  | [], _ => rfl
  | p :: ps, base => by
    simp only [assignOffsets, List.map_cons, assignOffsets_proto ps (base + p.Length)]

/-- C8: in the sessions negotiation produces, the first offset is the first
free code, each further offset follows the `Length` codes of the session
before it, the code ranges of two different sessions are disjoint, every
session runs a local descriptor whose capability the remote peer advertises,
and local `{abc/1, xyz/3}` against remote `{abc/1, abc/2}` gives exactly the
session `abc/1`. -/
theorem negotiate_ranges {X : Externals} (base : Nat) (locals : List (Protocol X))
    (remote : List Cap) :
    (∀ s, (negotiate base locals remote)[0]? = some s → s.offset = base) ∧
    (∀ (i : Nat) (s t : Session X), (negotiate base locals remote)[i]? = some s →
      (negotiate base locals remote)[i + 1]? = some t →
      t.offset = s.offset + s.proto.Length) ∧
    (∀ (i j : Nat) (s t : Session X), (negotiate base locals remote)[i]? = some s →
      (negotiate base locals remote)[j]? = some t → i ≠ j →
      ∀ code, ¬ (s.covers code ∧ t.covers code)) ∧
    (∀ s ∈ negotiate base locals remote, s.proto ∈ locals ∧ s.proto.cap ∈ remote) ∧
    (negotiate base [protoAbc1, protoXyz3] [⟨[97, 98, 99], 1⟩, ⟨[97, 98, 99], 2⟩]).map
      (fun s => (s.proto.cap, s.offset)) = [(⟨[97, 98, 99], 1⟩, base)] := by
  refine ⟨?_, ?_, ?_, ?_, ?_⟩
  · intro s hs
    unfold negotiate at hs
    generalize (matchedCaps locals remote).filterMap
      (fun c => locals.find? (fun p => decide (p.cap = c))) = ps at hs
    cases ps with
    | nil => simp [assignOffsets] at hs
    | cons p ps =>
      simp only [assignOffsets, List.getElem?_cons_zero, Option.some.injEq] at hs
      rw [← hs]
  · intro i s t hs ht
    exact assignOffsets_adjacent _ base i s t hs ht
  · have hpw := assignOffsets_pairwise
      ((matchedCaps locals remote).filterMap
        (fun c => locals.find? (fun p => decide (p.cap = c)))) base
    have key : ∀ (i j : Nat) (s t : Session X), (negotiate base locals remote)[i]? = some s →
        (negotiate base locals remote)[j]? = some t → i < j →
        s.offset + s.proto.Length ≤ t.offset := by
      intro i j s t hs ht hij
      obtain ⟨hi, hsi⟩ := List.getElem?_eq_some_iff.mp hs
      obtain ⟨hj, htj⟩ := List.getElem?_eq_some_iff.mp ht
      have := (List.pairwise_iff_getElem.mp hpw) i j hi hj hij
      rw [← hsi, ← htj]
      exact this
    intro i j s t hs ht hij code hc
    obtain ⟨⟨h1, h2⟩, ⟨h3, h4⟩⟩ := hc
    rcases Nat.lt_or_gt_of_ne hij with h | h
    · have := key i j s t hs ht h
      omega
    · have := key j i t s ht hs h
      omega
  · intro s hs
    have hmem : s.proto ∈ (negotiate base locals remote).map Session.proto :=
      List.mem_map_of_mem _ hs
    unfold negotiate at hmem
    rw [assignOffsets_proto] at hmem
    obtain ⟨c, hc, hfind⟩ := List.mem_filterMap.mp hmem
    have hpc : s.proto.cap = c := by
      have := List.find?_some hfind
      simpa using this
    have hcr : c ∈ remote := by
      unfold matchedCaps at hc
      have h2 := (List.mem_filter.mp hc).2
      have h3 : c ∈ sortCaps remote := by simpa using h2
      exact (List.perm_insertionSort _ remote).subset h3
    exact ⟨List.mem_of_find?_eq_some hfind, hpc ▸ hcr⟩
  · rfl

/-- Witness of C8: local `{xyz/3, abc/1}` against remote
`{xyz/3, abc/1, abc/2}` from first free code 16 gives `abc/1` on codes
16..20 and `xyz/3` on codes 21..27, and no code belongs to both. -/
theorem negotiate_ranges_witness :
    (negotiate 16 [protoXyz3, protoAbc1]
        [⟨[120, 121, 122], 3⟩, ⟨[97, 98, 99], 1⟩, ⟨[97, 98, 99], 2⟩]).map
      (fun s => (s.proto.cap, s.offset, s.proto.Length)) =
      [(⟨[97, 98, 99], 1⟩, 16, 5), (⟨[120, 121, 122], 3⟩, 21, 7)] ∧
    ∀ code, ¬ (Session.covers ⟨protoAbc1, 16⟩ code ∧ Session.covers ⟨protoXyz3, 21⟩ code) :=
  ⟨by decide,
    (negotiate_ranges 16 [protoXyz3, protoAbc1]
      [⟨[120, 121, 122], 3⟩, ⟨[97, 98, 99], 1⟩, ⟨[97, 98, 99], 2⟩]).2.2.1
      0 1 ⟨protoAbc1, 16⟩ ⟨protoXyz3, 21⟩ rfl rfl (by decide)⟩

/-! ## `Swap` keeps the elements -/

theorem cons_set_perm {α : Type} : ∀ (xs : List α) (m : Nat) (x b : α),
    xs[m]? = some b → (b :: xs.set m x).Perm (x :: xs)
  | [], _, _, _, h => by simp at h
  | y :: ys, 0, x, b, h => by
    simp only [List.getElem?_cons_zero, Option.some.injEq] at h
    subst h
    exact List.Perm.swap x y ys
  | y :: ys, m + 1, x, b, h => by
    simp only [List.getElem?_cons_succ] at h
    have ih := cons_set_perm ys m x b h
    simp only [List.set_cons_succ]
    exact ((List.Perm.swap y b _).trans (ih.cons y)).trans (List.Perm.swap x y ys)

theorem set_set_perm {α : Type} : ∀ (cs : List α) (n m : Nat) (a b : α),
    cs[n]? = some a → cs[m]? = some b → ((cs.set n b).set m a).Perm cs
  | [], _, _, _, _, h, _ => by simp at h
  | x :: xs, 0, 0, a, b, ha, _ => by
    simp only [List.getElem?_cons_zero, Option.some.injEq] at ha
    subst ha
    simp
  | x :: xs, 0, m + 1, a, b, ha, hb => by
    simp only [List.getElem?_cons_zero, Option.some.injEq] at ha
    simp only [List.getElem?_cons_succ] at hb
    subst ha
    simp only [List.set_cons_zero, List.set_cons_succ]
    exact cons_set_perm xs m x b hb
  | x :: xs, n + 1, 0, a, b, ha, hb => by
    simp only [List.getElem?_cons_zero, Option.some.injEq] at hb
    simp only [List.getElem?_cons_succ] at ha
    subst hb
    simp only [List.set_cons_zero, List.set_cons_succ]
    exact cons_set_perm xs n x a ha
  | x :: xs, n + 1, m + 1, a, b, ha, hb => by
    simp only [List.getElem?_cons_succ] at ha hb
    simp only [List.set_cons_succ]
    exact (set_set_perm xs n m a b ha hb).cons x

theorem set_set_restore {α : Type} (cs : List α) (n m : Nat) (a b : α)
    (ha : cs[n]? = some a) (hb : cs[m]? = some b) :
    (((cs.set n b).set m a).set n a).set m b = cs := by
  have hm : m < cs.length := (List.getElem?_eq_some_iff.mp hb).1
  have hn : n < cs.length := (List.getElem?_eq_some_iff.mp ha).1
  apply List.ext_getElem?
  intro k
  by_cases hkm : m = k
  · subst hkm
    simp [List.getElem?_set, hm, hb]
  · by_cases hkn : n = k
    · subst hkn
      simp [List.getElem?_set, hkm, hn, ha]
    · simp [List.getElem?_set, hkm, hkn]

theorem Swap_eq_some {cs cs1 : capsByNameAndVersion} {i j : Int}
    (h : Swap cs i j = some cs1) :
    ∃ a b, index cs i = some a ∧ index cs j = some b ∧ 0 ≤ i ∧ 0 ≤ j ∧
      cs1 = (cs.set i.toNat b).set j.toNat a := by
  cases ha : index cs i with
  | none => simp [Swap, ha] at h
  | some a =>
    cases hb : index cs j with
    | none => simp [Swap, ha, hb] at h
    | some b =>
      have h0i : 0 ≤ i := by
        by_contra hneg
        rw [index_neg cs i hneg] at ha
        cases ha
      have h0j : 0 ≤ j := by
        by_contra hneg
        rw [index_neg cs j hneg] at hb
        cases hb
      refine ⟨a, b, rfl, rfl, h0i, h0j, ?_⟩
      simp only [Swap, ha, hb, Option.bind_eq_bind, Option.some_bind, Option.pure_def,
        Option.some.injEq] at h
      exact h.symm

theorem Swap_some_perm {cs cs1 : capsByNameAndVersion} {i j : Int}
    (h : Swap cs i j = some cs1) : cs1.Perm cs := by
  obtain ⟨a, b, ha, hb, h0i, h0j, rfl⟩ := Swap_eq_some h
  rw [index_eq_getElem? cs i h0i] at ha
  rw [index_eq_getElem? cs j h0j] at hb
  exact set_set_perm cs i.toNat j.toNat a b ha hb

theorem swapSeq_perm : ∀ (ops : List (Int × Int)) (cs cs2 : capsByNameAndVersion),
    swapSeq cs ops = some cs2 → cs2.Perm cs
  | [], cs, cs2, h => by
    simp only [swapSeq, Option.some.injEq] at h
    rw [h]
  | (i, j) :: rest, cs, cs2, h => by
    simp only [swapSeq] at h
    cases h1 : Swap cs i j with
    | none => simp [h1] at h
    | some cs1 =>
      simp only [h1, Option.some_bind] at h
      exact (swapSeq_perm rest cs1 cs2 h).trans (Swap_some_perm h1)

theorem Swap_of_inRange (cs : capsByNameAndVersion) (i j : Int)
    (hi : 0 ≤ i ∧ i < Len cs) (hj : 0 ≤ j ∧ j < Len cs) :
    ∃ a b, index cs i = some a ∧ index cs j = some b ∧
      Swap cs i j = some ((cs.set i.toNat b).set j.toNat a) := by
  obtain ⟨a, ha⟩ := index_of_inRange cs i hi.1 hi.2
  obtain ⟨b, hb⟩ := index_of_inRange cs j hj.1 hj.2
  exact ⟨a, b, ha, hb, by simp [Swap, ha, hb]⟩

theorem swapSeq_of_inRange : ∀ (ops : List (Int × Int)) (cs : capsByNameAndVersion),
    (∀ p ∈ ops, (0 ≤ p.1 ∧ p.1 < Len cs) ∧ (0 ≤ p.2 ∧ p.2 < Len cs)) →
    ∃ cs2, swapSeq cs ops = some cs2
  | [], cs, _ => ⟨cs, rfl⟩
  | (i, j) :: rest, cs, h => by
    obtain ⟨hi, hj⟩ := h (i, j) (List.mem_cons_self _ _)
    obtain ⟨a, b, _, _, hs⟩ := Swap_of_inRange cs i j hi hj
    have hlen : Len ((cs.set i.toNat b).set j.toNat a) = Len cs := by
      simp [Len]
    obtain ⟨cs2, h2⟩ := swapSeq_of_inRange rest ((cs.set i.toNat b).set j.toNat a)
      (fun p hp => by
        rw [hlen]
        exact h p (List.mem_cons_of_mem _ hp))
    exact ⟨cs2, by simp only [swapSeq, hs, Option.some_bind, h2]⟩

/-- C11: for in-range `i`, `j` the slice after `Swap(i, j)` is a permutation
of the slice before it, every capability occurring as often as before; a
second `Swap(i, j)` restores the original slice; and every run of in-range
`Swap` calls completes with a permutation of the slice it started from, so
no capability is added, dropped or duplicated. -/
theorem Swap_perm (cs : capsByNameAndVersion) (i j : Int)
    (hi : 0 ≤ i ∧ i < Len cs) (hj : 0 ≤ j ∧ j < Len cs) :
    (∃ cs1, Swap cs i j = some cs1 ∧ cs1.Perm cs ∧
      (∀ c : Cap, cs1.count c = cs.count c) ∧ Swap cs1 i j = some cs) ∧
    (∀ ops : List (Int × Int),
      (∀ p ∈ ops, (0 ≤ p.1 ∧ p.1 < Len cs) ∧ (0 ≤ p.2 ∧ p.2 < Len cs)) →
      ∃ cs2, swapSeq cs ops = some cs2 ∧ cs2.Perm cs ∧
        (∀ c : Cap, cs2.count c = cs.count c) ∧ Len cs2 = Len cs) := by
  constructor
  · obtain ⟨a, b, ha, hb, hs⟩ := Swap_of_inRange cs i j hi hj
    have ha1 : cs[i.toNat]? = some a := by rw [← index_eq_getElem? cs i hi.1]; exact ha
    have hb1 : cs[j.toNat]? = some b := by rw [← index_eq_getElem? cs j hj.1]; exact hb
    have hperm := set_set_perm cs i.toNat j.toNat a b ha1 hb1
    obtain ⟨h1, h2, _, _, _⟩ := set_set_getElem? cs i.toNat j.toNat a b ha1 hb1
    refine ⟨_, hs, hperm, fun c => hperm.count_eq c, ?_⟩
    have hb2 : index ((cs.set i.toNat b).set j.toNat a) i = some b := by
      rw [index_eq_getElem? _ i hi.1, h1]
    have ha2 : index ((cs.set i.toNat b).set j.toNat a) j = some a := by
      rw [index_eq_getElem? _ j hj.1, h2]
    simp only [Swap, hb2, ha2, Option.bind_eq_bind, Option.some_bind, Option.pure_def,
      set_set_restore cs i.toNat j.toNat a b ha1 hb1]
  · intro ops hops
    obtain ⟨cs2, h2⟩ := swapSeq_of_inRange ops cs hops
    have hperm := swapSeq_perm ops cs cs2 h2
    exact ⟨cs2, h2, hperm, fun c => hperm.count_eq c, by simp only [Len, hperm.length_eq]⟩

/-- Witness of C11: swapping the ends of `[abc/1, abc/2, xyz/3]`, and the
run `Swap(0, 2)`, `Swap(1, 2)`, `Swap(0, 1)` on it. -/
theorem Swap_perm_witness :
    ((0 : Int) ≤ 0 ∧ (0 : Int) < Len sampleCaps) ∧
    ((0 : Int) ≤ 2 ∧ (2 : Int) < Len sampleCaps) ∧
    swapSeq sampleCaps [(0, 2), (1, 2), (0, 1)] =
      some [⟨[97, 98, 99], 1⟩, ⟨[120, 121, 122], 3⟩, ⟨[97, 98, 99], 2⟩] ∧
    ∃ cs1, Swap sampleCaps 0 2 = some cs1 ∧ cs1.Perm sampleCaps ∧
      (∀ c : Cap, cs1.count c = sampleCaps.count c) ∧ Swap cs1 0 2 = some sampleCaps :=
  ⟨by decide, by decide, by decide,
    (Swap_perm sampleCaps 0 2 (by decide) (by decide)).1⟩

/-! ## No index failure -/

/-- C12: `Len` is the number of elements, and for indices `i`, `j` with
`0 ≤ i < Len` and `0 ≤ j < Len` both `Less(i, j)` and `Swap(i, j)` complete
with a result instead of an index failure. -/
theorem Len_Less_Swap_safe (cs : capsByNameAndVersion) (i j : Int)
    (hi : 0 ≤ i ∧ i < Len cs) (hj : 0 ≤ j ∧ j < Len cs) :
    Len cs = (cs.length : Int) ∧ (∃ r, Less cs i j = some r) ∧
      (∃ cs1, Swap cs i j = some cs1) := by
  obtain ⟨a, b, ha, hb, hs⟩ := Swap_of_inRange cs i j hi hj
  exact ⟨rfl, ⟨_, Less_of_index ha hb⟩, ⟨_, hs⟩⟩

/-- Witness of C12 on `[abc/1, abc/2, xyz/3]` at indices 2 and 1; index 3
and index -1 are outside the slice and fail. -/
theorem Len_Less_Swap_safe_witness :
    ((0 : Int) ≤ 2 ∧ (2 : Int) < Len sampleCaps) ∧
    ((0 : Int) ≤ 1 ∧ (1 : Int) < Len sampleCaps) ∧
    Less sampleCaps 2 3 = none ∧ Swap sampleCaps (-1) 1 = none ∧
    Len sampleCaps = 3 ∧ (∃ r, Less sampleCaps 2 1 = some r) ∧
    (∃ cs1, Swap sampleCaps 2 1 = some cs1) :=
  ⟨by decide, by decide, by decide, by decide,
    Len_Less_Swap_safe sampleCaps 2 1 (by decide) (by decide)⟩

/-! ## The order of capabilities against the order of renderings -/

/-- C13: `Less` places `n/9` before `n/10`, while the byte order places the
rendering `n/10` before the rendering `n/9`; sorting by `Less` and sorting by
rendering give different lists. -/
theorem Less_differs_from_String_order :
    capN9.String = [110, 47, 57] ∧ capN10.String = [110, 47, 49, 48] ∧
    Less [capN9, capN10] 0 1 = some true ∧
    strLess capN10.String capN9.String = true ∧
    (∃ a b : Cap, Less [a, b] 0 1 = some true ∧ strLess b.String a.String = true) ∧
    sortCaps [capN9, capN10] = [capN9, capN10] ∧
    sortByString [capN9, capN10] = [capN10, capN9] ∧
    (∃ cs : List Cap, sortCaps cs ≠ sortByString cs) :=
  ⟨by decide, by decide, by decide, by decide,
    ⟨capN9, capN10, by decide, by decide⟩, by decide, by decide,
    ⟨[capN9, capN10], by decide⟩⟩

end P2P
